import Mathlib

/-!
Verification of the page-mapping construction algorithms of the `auditor`
repository (`src/bin/extract_hyperlinks.py` and
`src/bin/build_complete_mappings.py`).

The Python code manipulates one dictionary whose keys are either logical
page numbers (Python `int`) or special marker strings (`"_range_<n>"` in
`extract_hyperlinks.build_page_mapping`, `"_range_start_<n>"` in
`build_complete_mappings.build_theirs_mapping_from_hyperlinks`).  We model
the dictionary as an association list with a tagged key type, insertion
order preserved, assignment replacing the value of an existing key in
place (exactly the Python `dict` semantics used by the source).

Machine integers do not overflow in CPython, so logical/physical pages are
modelled as `Int`.  Python string operations used by the source are
modelled over `String`/`List Char` by structurally recursive functions:
`str.strip` strips ASCII whitespace from both ends, `str.isdigit` is
nonempty-and-all-ASCII-digits (the source only ever meets ASCII digits),
and the regexes `^(\d+)\s*-\s*(\d+)$` and `^(\d+)` are explicit
character-list scanners (the character classes `\d`, `\s`, `-` are
pairwise disjoint, so greedy scanning is exact).
-/

/-- Key of the working dictionary in `build_page_mapping` /
`build_theirs_mapping_from_hyperlinks`: an `int` key, a `"_range_<n>"`
marker, or a `"_range_start_<n>"` marker. -/
inductive MKey where
  | num (n : Int)
  | rmark (n : Int)
  | rstartMark (n : Int)
deriving DecidableEq

/-- Value stored in the working dictionary: a physical page, the
`(start_logical, end_logical, start_physical)` triple stored under a
`"_range_<n>"` key, or the `(logical, physical)` pair stored under a
`"_range_start_<n>"` key. -/
inductive MVal where
  | page (p : Int)
  | rinfo (a b c : Int)
  | rsinfo (a b : Int)
deriving DecidableEq

/-- The working dictionary: association list in insertion order. -/
abbrev PMap := List (MKey × MVal)

/-- Python `mapping[k] = v`: replace in place if the key exists, else
append at the end. -/
def upsert : PMap → MKey → MVal → PMap
  | [], k, v => [(k, v)]
  | e :: t, k, v => if e.1 = k then (k, v) :: t else e :: upsert t k v

/-- Python `mapping[k]` / `k in mapping` (as an `Option`). -/
def dlookup : PMap → MKey → Option MVal
  | [], _ => none
  | e :: t, k => if e.1 = k then some e.2 else dlookup t k

/-- Python `del mapping[k]`. -/
def derase : PMap → MKey → PMap
  | [], _ => []
  | e :: t, k => if e.1 = k then derase t k else e :: derase t k

/-- Look up an `int` key expecting a plain page value (the only value
shape ever stored under an `int` key by the source). -/
def lookupNum (m : PMap) (n : Int) : Option Int :=
  match dlookup m (MKey.num n) with
  | some (MVal.page p) => some p
  | _ => none

/-- Python `{k: v for k, v in mapping.items() if isinstance(k, int)}`,
in insertion order. -/
def numericEntries : PMap → List (Int × Int)
  | [] => []
  | (MKey.num n, MVal.page p) :: t => (n, p) :: numericEntries t
  | _ :: t => numericEntries t

/-- The `"_range_<n>"` marker triples, in insertion order
(`extract_hyperlinks.py` lines 113-116). -/
def markersOf : PMap → List (Int × Int × Int)
  | [] => []
  | (MKey.rmark _, MVal.rinfo a b c) :: t => (a, b, c) :: markersOf t
  | _ :: t => markersOf t

/-- The `"_range_start_<n>"` marker pairs, in insertion order
(`build_complete_mappings.py` line 129). -/
def rstartsOf : PMap → List (Int × Int)
  | [] => []
  | (MKey.rstartMark _, MVal.rsinfo a b) :: t => (a, b) :: rstartsOf t
  | _ :: t => rstartsOf t

/-- Value of a nonempty digit run, as Python `int(...)`. -/
def chDigitsVal (cs : List Char) : Int :=
  Int.ofNat (cs.foldl (fun a c => 10 * a + (c.toNat - 48)) 0)

/-- Python `str.strip()` over the character list (ASCII whitespace; the
source's labels contain no other whitespace). -/
def listStrip (cs : List Char) : List Char :=
  ((cs.dropWhile Char.isWhitespace).reverse.dropWhile Char.isWhitespace).reverse

/-- Python `s.strip()`. -/
def pyStrip (s : String) : String := String.mk (listStrip s.data)

/-- Python `s.endswith(c)` for a one-character suffix. -/
def strEndsWith (s : String) (c : Char) : Bool :=
  match s.data.getLast? with
  | some c2 => c2 = c
  | none => false

/-- Python `s[:-1]`. -/
def strDropLast (s : String) : String := String.mk s.data.dropLast

/-- Python `c in s`. -/
def strContains (s : String) (c : Char) : Bool := s.data.contains c

/-- Splitter for Python `s.split(',')`: pieces between commas, empty
pieces kept. -/
def splitCommaAux : List Char → List Char → List (List Char)
  | [], acc => [acc.reverse]
  | c :: rest, acc =>
    if c = ',' then acc.reverse :: splitCommaAux rest []
    else splitCommaAux rest (c :: acc)

/-- Python `s.split(',')`. -/
def strSplitComma (s : String) : List String :=
  (splitCommaAux s.data []).map (fun cs => String.mk cs)

/-- Python `int(s)` on a possibly signed, possibly whitespace-padded
string; `none` where `int()` raises `ValueError`. -/
def pyIntOfStr (s : String) : Option Int :=
  match listStrip s.data with
  | '-' :: ds => if ds ≠ [] ∧ ds.all Char.isDigit then some (-(chDigitsVal ds)) else none
  | '+' :: ds => if ds ≠ [] ∧ ds.all Char.isDigit then some (chDigitsVal ds) else none
  | ds => if ds ≠ [] ∧ ds.all Char.isDigit then some (chDigitsVal ds) else none

/-- Python `s.isdigit()` on the ASCII labels the source deals with:
nonempty and all digits. -/
def isDigits (s : String) : Bool :=
  s.length != 0 && s.data.all Char.isDigit

/-- Integer value of a digit-only string. -/
def digitsVal (s : String) : Int := chDigitsVal s.data

/-- `re.match(r'^(\d+)\s*-\s*(\d+)$', t)` from
`extract_hyperlinks.py` line 74, returning the two numeric groups. -/
def parseRange (t : String) : Option (Int × Int) :=
  let cs := t.data
  let d1 := cs.takeWhile Char.isDigit
  let r1 := cs.dropWhile Char.isDigit
  if d1.isEmpty then none
  else
    match r1.dropWhile Char.isWhitespace with
    | '-' :: r3 =>
      let r4 := r3.dropWhile Char.isWhitespace
      let d2 := r4.takeWhile Char.isDigit
      let r5 := r4.dropWhile Char.isDigit
      if !d2.isEmpty && r5.isEmpty then some (chDigitsVal d1, chDigitsVal d2)
      else none
    | _ => none

/-- `[int(p.strip()) for p in link_text.split(',') if p.strip().isdigit()]`
from `extract_hyperlinks.py` line 103. -/
def commaNums (t : String) : List Int :=
  (strSplitComma t).filterMap fun p =>
    if isDigits (pyStrip p) then some (digitsVal (pyStrip p)) else none

/-- `re.match(r'^(\d+)', link_text)` from
`build_complete_mappings.py` line 123. -/
def leadingDigits (t : String) : Option Int :=
  let d := t.data.takeWhile Char.isDigit
  if d.isEmpty then none else some (chDigitsVal d)

/-- The structured intent of a (stripped) anchor label, one constructor
per branch of the `if`/`elif` chain of `build_page_mapping`
(`extract_hyperlinks.py` lines 74-109).  The trailing-comma branch
(line 97) stores a single page exactly like the digit-only branch, so it
is rendered as `singlePage`. -/
inductive ParsedIntent where
  | explicitRange (a b : Int)
  | singlePage (n : Int)
  | rangeStart (n : Int)
  | commaList (ns : List Int)
  | unparseable
deriving DecidableEq

/-- The branch dispatch of `build_page_mapping`, lines 74-109, applied to
the already-stripped label.  First match wins, in source order; there is
no fallback branch in this function: anything else is dropped. -/
def parseLabel (t : String) : ParsedIntent :=
  match parseRange t with
  | some (a, b) => ParsedIntent.explicitRange a b
  | none =>
    if isDigits t then ParsedIntent.singlePage (digitsVal t)
    else if strEndsWith t '-' && isDigits (pyStrip (strDropLast t)) then
      ParsedIntent.rangeStart (digitsVal (pyStrip (strDropLast t)))
    else if strEndsWith t ',' && isDigits (pyStrip (strDropLast t)) then
      ParsedIntent.singlePage (digitsVal (pyStrip (strDropLast t)))
    else if strContains t ',' then ParsedIntent.commaList (commaNums t)
    else ParsedIntent.unparseable

/-- One anchor of the accumulation pass of `build_page_mapping`
(lines 69-109).  Returns the updated dictionary and the number of
"multiple pages" warnings printed (line 109). -/
def accumStep (m : PMap) (s : String) (p : Int) : PMap × Nat :=
  match parseLabel (pyStrip s) with
  | ParsedIntent.explicitRange a b =>
    (upsert (upsert m (MKey.num a) (MVal.page p)) (MKey.rmark a) (MVal.rinfo a b p), 0)
  | ParsedIntent.singlePage n => (upsert m (MKey.num n) (MVal.page p), 0)
  | ParsedIntent.rangeStart n => (upsert m (MKey.num n) (MVal.page p), 0)
  | ParsedIntent.commaList ns =>
    match ns with
    | [n] => (upsert m (MKey.num n) (MVal.page p), 0)
    | _ => (m, 1)
  | ParsedIntent.unparseable => (m, 0)

/-- The whole accumulation pass over the hyperlink list, in scan order. -/
def accumulate (hs : List (String × Int)) : PMap × Nat :=
  hs.foldl
    (fun acc h =>
      let r := accumStep acc.1 h.1 h.2
      (r.1, acc.2 + r.2))
    ([], 0)

/-- The consecutive run of writes `mapping[L0+i] = P0+i`, `i` ascending
(`extract_hyperlinks.py` lines 129-132). -/
def writeRun (m : PMap) (L P : Int) : Nat → PMap
  | 0 => m
  | n + 1 => writeRun (upsert m (MKey.num L) (MVal.page P)) (L + 1) (P + 1) n

/-- The body of the range-resolution loop for one marker triple
(`extract_hyperlinks.py` lines 116-135), before the marker is deleted.
Returns the updated dictionary and the number of size-mismatch warnings
printed. -/
def resolveStep (m : PMap) (L0 L1 P0 : Int) : PMap × Nat :=
  match lookupNum m L1 with
  | some P1 =>
    if L1 - L0 + 1 = P1 - P0 + 1 then
      (writeRun m L0 P0 (L1 - L0 + 1).toNat, 0)
    else (m, 1)
  | none => (m, 0)

/-- The full range-resolution pass (`extract_hyperlinks.py`
lines 113-138): the marker list is computed up front; each iteration
resolves one marker against the current dictionary and deletes the
marker key. -/
def resolveAll (m : PMap) : List (Int × Int × Int) → PMap × Nat
  | [] => (m, 0)
  | (a, b, c) :: rest =>
    let r := resolveStep m a b c
    let next := resolveAll (derase r.1 (MKey.rmark a)) rest
    (next.1, r.2 + next.2)

/-- `[(L, P), (L+1, P+1), ...]`, `n` entries: the shape produced by the
interpolation loops (both the gap-filling loop of lines 161-163 and the
offset strategy's generation loop). -/
def fillRun (L P : Int) : Nat → List (Int × Int)
  | 0 => []
  | n + 1 => (L, P) :: fillRun (L + 1) (P + 1) n

/-- The continuity-interpolation loop of `build_page_mapping`
(lines 146-168) over the entry list already sorted by logical key:
keep each known entry; between adjacent known entries interpolate iff
the physical difference equals the logical difference and that
difference exceeds 1; always keep the last entry. -/
def interpCore : List (Int × Int) → List (Int × Int)
  | [] => []
  | [(L, P)] => [(L, P)]
  | (L0, P0) :: (L1, P1) :: rest =>
    (L0, P0) ::
      ((if P1 - P0 = L1 - L0 ∧ L1 - L0 > 1 then
          fillRun (L0 + 1) (P0 + 1) (L1 - L0 - 1).toNat
        else []) ++ interpCore ((L1, P1) :: rest))

/-- The adjacent-pair condition of the gap-filling loop
(`extract_hyperlinks.py` line 159). -/
def fillCond (a b : Int × Int) : Prop := b.2 - a.2 = b.1 - a.1 ∧ b.1 - a.1 > 1

instance : DecidableRel fillCond := fun a b =>
  inferInstanceAs (Decidable (b.2 - a.2 = b.1 - a.1 ∧ b.1 - a.1 > 1))

/-- Order on entries by logical key, used to model Python
`sorted(numeric_mapping.keys())`. -/
def keyLE (a b : Int × Int) : Prop := a.1 ≤ b.1

instance : DecidableRel keyLE := fun a b => inferInstanceAs (Decidable (a.1 ≤ b.1))

instance : IsTotal (Int × Int) keyLE := ⟨fun a b => le_total a.1 b.1⟩

instance : IsTrans (Int × Int) keyLE := ⟨fun _ _ _ h1 h2 => le_trans h1 h2⟩

/-- Strict order on entries by logical key. -/
def keyLt (a b : Int × Int) : Prop := a.1 < b.1

instance : DecidableRel keyLt := fun a b => inferInstanceAs (Decidable (a.1 < b.1))

instance : IsTrans (Int × Int) keyLt := ⟨fun _ _ _ h1 h2 => lt_trans h1 h2⟩

/-- Sort dictionary entries by logical key: since a dictionary's keys
are distinct, this is the entry list of Python
`sorted(numeric_mapping.keys())` paired with the looked-up values. -/
def sortEntries (l : List (Int × Int)) : List (Int × Int) :=
  l.insertionSort keyLE

/-- The Continuity Interpolator (`extract_hyperlinks.py` lines 140-168)
as a function on the numeric entry list of the sparse mapping. -/
def interpolateGaps (l : List (Int × Int)) : List (Int × Int) :=
  interpCore (sortEntries l)

/-- Association-list lookup on the final logical-to-physical entry
lists. -/
def lookupKey : List (Int × Int) → Int → Option Int
  | [], _ => none
  | e :: t, k => if e.1 = k then some e.2 else lookupKey t k

/-- `build_page_mapping` of `extract_hyperlinks.py` (lines 62-170):
accumulation pass, range-resolution pass over the collected markers,
then the continuity interpolation of the numeric entries.  Returns the
final complete mapping (entries in ascending key order, exactly the
insertion order of the returned Python dict) and the total number of
warnings printed. -/
def build_page_mapping (hs : List (String × Int)) : List (Int × Int) × Nat :=
  let acc := accumulate hs
  let res := resolveAll acc.1 (markersOf acc.1)
  (interpCore (sortEntries (numericEntries res.1)), acc.2 + res.2)

/-- One anchor of the mapping loop of
`build_theirs_mapping_from_hyperlinks` (`build_complete_mappings.py`
lines 106-126).  Note: unlike `build_page_mapping`, the trailing-dash
test does not strip the prefix (line 115 uses `link_text[:-1].isdigit()`),
and anything else falls back to the leading digit run (line 123). -/
def theirsStep (m : PMap) (s : String) (p : Int) : PMap :=
  let t := pyStrip s
  if isDigits t then upsert m (MKey.num (digitsVal t)) (MVal.page p)
  else if strEndsWith t '-' && isDigits (strDropLast t) then
    upsert m (MKey.rstartMark (digitsVal (strDropLast t)))
      (MVal.rsinfo (digitsVal (strDropLast t)) p)
  else
    match leadingDigits t with
    | some n => upsert m (MKey.num n) (MVal.page p)
    | none => m

/-- The `range_starts` cleanup loop of `build_complete_mappings.py`
lines 129-135: each marker is turned into a plain entry and deleted. -/
def theirsResolve (m : PMap) : List (Int × Int) → PMap
  | [] => m
  | (a, p) :: rest =>
    theirsResolve (derase (upsert m (MKey.num a) (MVal.page p)) (MKey.rstartMark a)) rest

/-- `build_theirs_mapping_from_hyperlinks` (`build_complete_mappings.py`
lines 103-171) from the harvested hyperlink list onward: mapping loop,
range-start cleanup, then the same continuity interpolation as
`build_page_mapping`. -/
def build_theirs_mapping (hs : List (String × Int)) : List (Int × Int) :=
  let m := hs.foldl (fun acc h => theirsStep acc h.1 h.2) []
  let m2 := theirsResolve m (rstartsOf m)
  interpCore (sortEntries (numericEntries m2))

/-- Kind of a PDF link, as filtered by the source
(`fitz.LINK_GOTO`, `fitz.LINK_NAMED`, anything else). -/
inductive LinkKind where
  | goto
  | named
  | other
deriving DecidableEq

/-- A clickable region as exposed by the document-handle collaborator:
its kind, its raw `page` value (an integer, a string for some named
destinations, or absent), and the text found in its clickable
rectangle. -/
structure Link where
  kind : LinkKind
  page : Option (Int ⊕ String)
  text : String
deriving DecidableEq

/-- Destination resolution of `build_yours_mapping`
(`build_complete_mappings.py` lines 29-40): a direct reference's raw
0-based page plus one (`link.get('page', -1) + 1`); a named
destination's page parsed if textual, then plus one; parse failure
leaves the destination at -1; a missing page value yields `-1 + 1 = 0`.
A direct reference never carries a textual page per the collaborator's
contract; that dead case is mapped to the dropped-anchor path. -/
def resolveDest (l : Link) : Int :=
  match l.kind, l.page with
  | LinkKind.goto, some (Sum.inl n) => n + 1
  | LinkKind.goto, _ => 0
  | LinkKind.named, some (Sum.inl n) => n + 1
  | LinkKind.named, some (Sum.inr s) =>
    match pyIntOfStr s with
    | some k => k + 1
    | none => -1
  | LinkKind.named, none => 0
  | LinkKind.other, _ => -1

/-- The inner link loop of `build_yours_mapping` (lines 22-44): the
resolved destination of the first goto/named link whose stripped text is
exactly `"1"` and whose destination is positive.  A `"1"`-labelled link
with a non-positive destination does not stop the scan. -/
def firstOneDestLinks : List Link → Option Int
  | [] => none
  | l :: rest =>
    if (l.kind = LinkKind.goto ∨ l.kind = LinkKind.named) ∧ pyStrip l.text = "1" then
      if resolveDest l > 0 then some (resolveDest l) else firstOneDestLinks rest
    else firstOneDestLinks rest

/-- Page-by-page scan for the first resolvable `"1"` anchor. -/
def firstOneDestPages : List (List Link) → Option Int
  | [] => none
  | pg :: rest =>
    match firstOneDestLinks pg with
    | some d => some d
    | none => firstOneDestPages rest

/-- The bounded scan window of `build_yours_mapping` (line 18):
only the first `min(50, len(doc))` pages are searched. -/
def firstOneDest (doc : List (List Link)) : Option Int :=
  firstOneDestPages (doc.take 50)

/-- `build_yours_mapping` (`build_complete_mappings.py` lines 7-61):
derive `offset = dest_page - 1` from the first resolvable `"1"` anchor,
falling back to the hardcoded constant `142` (line 53) with a warning
when none is found, then generate `mapping[L] = L + offset` for
`L = 1 .. maxLogical`.  The `Bool` records whether the fallback warning
was printed. -/
def build_yours_mapping (doc : List (List Link)) (maxLogical : Nat) :
    List (Int × Int) × Bool :=
  match firstOneDest doc with
  | some d => (fillRun 1 (1 + (d - 1)) maxLogical, false)
  | none => (fillRun 1 (1 + 142) maxLogical, true)

/-- An anchor: label text and resolved 1-based destination. -/
abbrev Anchor := String × Int

/-- Modelled from the spec: the "stop at first gap" variant of the
Anchor Extractor (spec section 4.1) is not part of the two files under
`src/` (both in-src extractors scan a fixed window or the whole
document); this definition follows the spec's words.  Pages are given as
the anchor lists they yield; the flag records whether any anchor has
been seen on an earlier page.  Scanning halts at the first page yielding
zero anchors once an anchor has been seen; zero-anchor pages seen
earlier are skipped. -/
def extract_anchors_early_stop : List (List Anchor) → Bool → List Anchor
  | [], _ => []
  | pg :: rest, seen =>
    if pg.isEmpty then
      if seen then [] else extract_anchors_early_stop rest false
    else pg ++ extract_anchors_early_stop rest true

/-! ### Dictionary lemmas -/

theorem dlookup_upsert (m : PMap) (k : MKey) (v : MVal) (k' : MKey) :
    dlookup (upsert m k v) k' = if k' = k then some v else dlookup m k' := by
  induction m with
  | nil =>
    by_cases h : k' = k <;> simp [upsert, dlookup, h]
    exact fun h2 => (h h2.symm).elim
  | cons e t ih =>
    by_cases he : e.1 = k
    · by_cases h : k' = k
      · simp [upsert, he, dlookup, h]
      · have hk : ¬ k = k' := fun h2 => h h2.symm
        have he' : ¬ e.1 = k' := by rw [he]; exact hk
        simp [upsert, he, dlookup, h, hk, he']
    · by_cases h2 : e.1 = k'
      · have : ¬ k' = k := fun hh => he (h2.trans hh)
        simp [upsert, he, dlookup, h2, this]
      · simp [upsert, he, dlookup, h2, ih]

theorem dlookup_derase (m : PMap) (k k' : MKey) :
    dlookup (derase m k) k' = if k' = k then none else dlookup m k' := by
  induction m with
  | nil => simp [derase, dlookup]
  | cons e t ih =>
    by_cases he : e.1 = k
    · rw [derase, if_pos he, ih]
      by_cases h : k' = k
      · simp [h]
      · rw [if_neg h, if_neg h, dlookup, if_neg (fun h2 : e.1 = k' => h (he ▸ h2).symm)]
    · rw [derase, if_neg he, dlookup]
      by_cases h2 : e.1 = k'
      · have : ¬ k' = k := fun hh => he (h2.trans hh)
        simp [h2, this, dlookup]
      · simp [h2, ih, dlookup]

theorem lookupNum_upsert_page (m : PMap) (a v k : Int) :
    lookupNum (upsert m (MKey.num a) (MVal.page v)) k =
      if k = a then some v else lookupNum m k := by
  unfold lookupNum
  rw [dlookup_upsert]
  by_cases h : k = a <;> simp [h]

theorem lookupNum_upsert_rmark (m : PMap) (a : Int) (v : MVal) (k : Int) :
    lookupNum (upsert m (MKey.rmark a) v) k = lookupNum m k := by
  unfold lookupNum
  rw [dlookup_upsert, if_neg (by simp)]

theorem lookupNum_upsert_rstart (m : PMap) (a : Int) (v : MVal) (k : Int) :
    lookupNum (upsert m (MKey.rstartMark a) v) k = lookupNum m k := by
  unfold lookupNum
  rw [dlookup_upsert, if_neg (by simp)]

theorem lookupNum_derase_rmark (m : PMap) (a k : Int) :
    lookupNum (derase m (MKey.rmark a)) k = lookupNum m k := by
  unfold lookupNum
  rw [dlookup_derase, if_neg (by simp)]

theorem lookupNum_writeRun (n : Nat) :
    ∀ (m : PMap) (L P k : Int),
      lookupNum (writeRun m L P n) k =
        if L ≤ k ∧ k < L + n then some (P + (k - L)) else lookupNum m k := by
  induction n with
  | zero =>
    intro m L P k
    rw [writeRun, if_neg (by push_cast; omega)]
  | succ n ih =>
    intro m L P k
    rw [writeRun, ih, lookupNum_upsert_page]
    by_cases h1 : L + 1 ≤ k ∧ k < L + 1 + n
    · rw [if_pos h1, if_pos (by push_cast at h1 ⊢; omega)]
      have : P + 1 + (k - (L + 1)) = P + (k - L) := by ring
      rw [this]
    · rw [if_neg h1]
      by_cases h2 : k = L
      · rw [if_pos h2, if_pos (by push_cast at h1 ⊢; omega), h2]
        have : P + (L - L) = P := by ring
        rw [this]
      · rw [if_neg h2, if_neg (by push_cast at h1 ⊢; omega)]

/-! ### fillRun lemmas -/

theorem lookupKey_fillRun (n : Nat) :
    ∀ (L P k : Int),
      lookupKey (fillRun L P n) k =
        if L ≤ k ∧ k < L + n then some (P + (k - L)) else none := by
  induction n with
  | zero =>
    intro L P k
    rw [fillRun, lookupKey, if_neg (by push_cast; omega)]
  | succ n ih =>
    intro L P k
    rw [fillRun, lookupKey, ih]
    by_cases h0 : L = k
    · rw [if_pos h0, if_pos (by push_cast; omega), h0]
      have : P + (k - k) = P := by ring
      rw [this]
    · rw [if_neg h0]
      by_cases h1 : L + 1 ≤ k ∧ k < L + 1 + n
      · rw [if_pos h1, if_pos (by push_cast at h1 ⊢; omega)]
        have : P + 1 + (k - (L + 1)) = P + (k - L) := by ring
        rw [this]
      · rw [if_neg h1, if_neg (by push_cast at h1 ⊢; omega)]

theorem mem_fillRun (n : Nat) :
    ∀ (L P : Int) (x : Int × Int), x ∈ fillRun L P n →
      ∃ j : Nat, j < n ∧ x.1 = L + j ∧ x.2 = P + j := by
  induction n with
  | zero => intro L P x h; simp [fillRun] at h
  | succ n ih =>
    intro L P x h
    rw [fillRun, List.mem_cons] at h
    rcases h with h | h
    · exact ⟨0, by omega, by simp [h], by simp [h]⟩
    · obtain ⟨j, hj, h1, h2⟩ := ih (L + 1) (P + 1) x h
      exact ⟨j + 1, by omega, by push_cast; omega, by push_cast; omega⟩

/-- Chaining a consecutive run in front of a tail: if `R` holds along any
consecutive step `(a, b) → (a+1, b+1)` and the chain holds from the run's
last element on, it holds over the whole run. -/
theorem chain_fillRun (R : Int × Int → Int × Int → Prop)
    (hstep : ∀ L P : Int, R (L, P) (L + 1, P + 1)) (n : Nat) :
    ∀ (L P : Int) (t : List (Int × Int)),
      List.Chain' R ((L + n, P + n) :: t) →
      List.Chain' R ((L, P) :: (fillRun (L + 1) (P + 1) n ++ t)) := by
  induction n with
  | zero =>
    intro L P t h
    rw [fillRun]
    simpa using h
  | succ n ih =>
    intro L P t h
    rw [fillRun, List.cons_append, List.chain'_cons]
    constructor
    · exact hstep L P
    · have h' : List.Chain' R ((L + 1 + (n : Int), P + 1 + (n : Int)) :: t) := by
        have e1 : L + 1 + (n : Int) = L + ((n : Int) + 1) := by ring
        have e2 : P + 1 + (n : Int) = P + ((n : Int) + 1) := by ring
        rw [e1, e2]
        simpa using h
      exact ih (L + 1) (P + 1) t h'

/-! ### interpCore lemmas -/


theorem interpCore_cons (e : Int × Int) (rest : List (Int × Int)) :
    ∃ tl, interpCore (e :: rest) = e :: tl := by
  obtain ⟨L, P⟩ := e
  cases rest with
  | nil => exact ⟨[], rfl⟩
  | cons e1 t =>
    obtain ⟨L1, P1⟩ := e1
    exact ⟨_, rfl⟩

theorem interpCore_cons_cons (L0 P0 L1 P1 : Int) (rest : List (Int × Int)) :
    interpCore ((L0, P0) :: (L1, P1) :: rest) =
      (L0, P0) ::
        ((if P1 - P0 = L1 - L0 ∧ L1 - L0 > 1 then
            fillRun (L0 + 1) (P0 + 1) (L1 - L0 - 1).toNat
          else []) ++ interpCore ((L1, P1) :: rest)) := rfl

/-- If no adjacent pair satisfies the fill condition, the interpolation
loop returns its input unchanged. -/
theorem interpCore_eq_self (l : List (Int × Int))
    (h : List.Chain' (fun a b => ¬ fillCond a b) l) : interpCore l = l := by
  induction l with
  | nil => rfl
  | cons e t ih =>
    cases t with
    | nil =>
      obtain ⟨L, P⟩ := e
      rfl
    | cons e1 t1 =>
      rw [List.chain'_cons] at h
      obtain ⟨L0, P0⟩ := e
      obtain ⟨L1, P1⟩ := e1
      have hnc : ¬ (P1 - P0 = L1 - L0 ∧ L1 - L0 > 1) := h.1
      rw [interpCore_cons_cons, if_neg hnc, List.nil_append, ih h.2]

/-- After one interpolation pass no adjacent pair satisfies the fill
condition any more: every synthesized step has gap exactly 1, and every
surviving gap was rejected by the condition. -/
theorem chain_not_fillCond_interpCore (l : List (Int × Int)) :
    List.Chain' (fun a b => ¬ fillCond a b) (interpCore l) := by
  induction l with
  | nil => exact List.chain'_nil
  | cons e t ih =>
    cases t with
    | nil =>
      obtain ⟨L, P⟩ := e
      simp [interpCore]
    | cons e1 t1 =>
      obtain ⟨L0, P0⟩ := e
      obtain ⟨L1, P1⟩ := e1
      obtain ⟨tl, htl⟩ := interpCore_cons (L1, P1) t1
      rw [interpCore_cons_cons]
      by_cases hc : P1 - P0 = L1 - L0 ∧ L1 - L0 > 1
      · rw [if_pos hc]
        refine chain_fillRun _ (fun L P hcc => ?_) _ L0 P0 _ ?_
        · have h2 : L + 1 - L > 1 := hcc.2
          omega
        · rw [htl, List.chain'_cons]
          refine ⟨fun hcc => ?_, ?_⟩
          · have hb : L1 - (L0 + ((L1 - L0 - 1).toNat : Int)) > 1 := hcc.2
            omega
          · rw [← htl]
            exact ih
      · rw [if_neg hc, List.nil_append, htl, List.chain'_cons]
        refine ⟨fun hcc => hc ⟨hcc.1, hcc.2⟩, ?_⟩
        rw [← htl]
        exact ih

/-- Generic chain preservation: any relation that holds along consecutive
`(a, b) → (a+1, b+1)` steps and along the input's adjacent pairs also
holds along the adjacent pairs of the interpolated list. -/
theorem chain_interpCore (R : Int × Int → Int × Int → Prop)
    (hstep : ∀ L P : Int, R (L, P) (L + 1, P + 1)) :
    ∀ l : List (Int × Int), List.Chain' R l → List.Chain' R (interpCore l) := by
  intro l
  induction l with
  | nil => intro _; exact List.chain'_nil
  | cons e t ih =>
    intro hl
    cases t with
    | nil =>
      obtain ⟨L, P⟩ := e
      simp [interpCore]
    | cons e1 t1 =>
      obtain ⟨L0, P0⟩ := e
      obtain ⟨L1, P1⟩ := e1
      rw [List.chain'_cons] at hl
      obtain ⟨tl, htl⟩ := interpCore_cons (L1, P1) t1
      rw [interpCore_cons_cons]
      by_cases hc : P1 - P0 = L1 - L0 ∧ L1 - L0 > 1
      · obtain ⟨hc1, hc2⟩ := hc
        rw [if_pos ⟨hc1, hc2⟩]
        refine chain_fillRun R hstep _ L0 P0 _ ?_
        rw [htl, List.chain'_cons]
        constructor
        · have e1' : L0 + ((L1 - L0 - 1).toNat : Int) = L1 - 1 := by omega
          have e2' : P0 + ((L1 - L0 - 1).toNat : Int) = P1 - 1 := by omega
          rw [e1', e2']
          have hs := hstep (L1 - 1) (P1 - 1)
          have e3 : L1 - 1 + 1 = L1 := by ring
          have e4 : P1 - 1 + 1 = P1 := by ring
          rwa [e3, e4] at hs
        · rw [← htl]
          exact ih hl.2
      · rw [if_neg hc, List.nil_append, htl, List.chain'_cons]
        refine ⟨hl.1, ?_⟩
        rw [← htl]
        exact ih hl.2

/-- Every input entry survives interpolation. -/
theorem mem_interpCore_of_mem :
    ∀ (l : List (Int × Int)) (x : Int × Int), x ∈ l → x ∈ interpCore l := by
  intro l
  induction l with
  | nil => intro x h; exact absurd h (List.not_mem_nil x)
  | cons e t ih =>
    intro x h
    cases t with
    | nil =>
      obtain ⟨L, P⟩ := e
      simpa [interpCore] using h
    | cons e1 t1 =>
      obtain ⟨L0, P0⟩ := e
      obtain ⟨L1, P1⟩ := e1
      rw [List.mem_cons] at h
      rw [interpCore_cons_cons, List.mem_cons]
      rcases h with h | h
      · exact Or.inl h
      · exact Or.inr (List.mem_append_right _ (ih x h))

/-- Every entry of the interpolated list is an input entry or was
synthesized by the linear rule between two entries that are directly
adjacent in the input list. -/
theorem mem_interpCore_cases :
    ∀ (l : List (Int × Int)) (x : Int × Int), x ∈ interpCore l →
      x ∈ l ∨
        ∃ a b : Int × Int, (∃ u v, l = u ++ a :: b :: v) ∧
          b.2 - a.2 = b.1 - a.1 ∧ b.1 - a.1 > 1 ∧
          a.1 < x.1 ∧ x.1 < b.1 ∧ x.2 = a.2 + (x.1 - a.1) := by
  intro l
  induction l with
  | nil => intro x h; exact absurd h (List.not_mem_nil x)
  | cons e t ih =>
    intro x h
    cases t with
    | nil =>
      obtain ⟨L, P⟩ := e
      simp [interpCore] at h
      exact Or.inl (by simp [h])
    | cons e1 t1 =>
      obtain ⟨L0, P0⟩ := e
      obtain ⟨L1, P1⟩ := e1
      rw [interpCore_cons_cons, List.mem_cons, List.mem_append] at h
      rcases h with h | h | h
      · exact Or.inl (by simp [h])
      · by_cases hc : P1 - P0 = L1 - L0 ∧ L1 - L0 > 1
        · rw [if_pos hc] at h
          obtain ⟨j, hj, h1, h2⟩ := mem_fillRun _ _ _ _ h
          have hn : ((L1 - L0 - 1).toNat : Int) = L1 - L0 - 1 := by omega
          refine Or.inr ⟨(L0, P0), (L1, P1), ⟨[], t1, rfl⟩, hc.1, hc.2, ?_, ?_, ?_⟩
          · simp only [h1]; omega
          · simp only [h1]; omega
          · simp only [h1, h2]; omega
        · rw [if_neg hc] at h
          exact absurd h (List.not_mem_nil x)
      · rcases ih x h with h' | ⟨a, b, ⟨u, v, huv⟩, hrest⟩
        · exact Or.inl (List.mem_cons_of_mem _ h')
        · exact Or.inr ⟨a, b, ⟨(L0, P0) :: u, v, by rw [huv]; rfl⟩, hrest⟩

/-! ### Lookup and uniqueness on final entry lists -/

theorem mem_of_lookupKey_eq_some :
    ∀ (l : List (Int × Int)) (k v : Int), lookupKey l k = some v → (k, v) ∈ l := by
  intro l
  induction l with
  | nil => intro k v h; exact absurd h (by simp [lookupKey])
  | cons e t ih =>
    intro k v h
    rw [lookupKey] at h
    by_cases he : e.1 = k
    · rw [if_pos he] at h
      have : e = (k, v) := by
        obtain ⟨a, b⟩ := e
        simp at he h
        simp [he, h]
      exact this ▸ List.mem_cons_self e t
    · rw [if_neg he] at h
      exact List.mem_cons_of_mem _ (ih k v h)

theorem lookupKey_ne_none_of_mem :
    ∀ (l : List (Int × Int)) (k v : Int), (k, v) ∈ l → lookupKey l k ≠ none := by
  intro l
  induction l with
  | nil => intro k v h; exact absurd h (List.not_mem_nil _)
  | cons e t ih =>
    intro k v h
    rw [List.mem_cons] at h
    rw [lookupKey]
    by_cases he : e.1 = k
    · simp [he]
    · rw [if_neg he]
      rcases h with h | h
      · exact absurd (by rw [← h]) he
      · exact ih k v h

theorem lookupKey_eq_some_of_mem :
    ∀ (l : List (Int × Int)), (l.map Prod.fst).Nodup →
      ∀ (k v : Int), (k, v) ∈ l → lookupKey l k = some v := by
  intro l
  induction l with
  | nil => intro _ k v h; exact absurd h (List.not_mem_nil _)
  | cons e t ih =>
    intro hnd k v h
    rw [List.map_cons, List.nodup_cons] at hnd
    rw [List.mem_cons] at h
    rw [lookupKey]
    rcases h with h | h
    · rw [← h]
      simp
    · have he : e.1 ≠ k := by
        intro hek
        have hk : k ∈ t.map Prod.fst := List.mem_map_of_mem Prod.fst h
        apply hnd.1
        rw [hek]
        exact hk
      rw [if_neg he]
      exact ih hnd.2 k v h

/-- Keys of a key-sorted duplicate-free entry list stay duplicate-free
and strictly sorted after interpolation. -/
theorem chain_keyLt_interp_sortEntries (l : List (Int × Int))
    (h : (l.map Prod.fst).Nodup) :
    List.Chain' keyLt (interpCore (sortEntries l)) := by
  have hperm : List.Perm (sortEntries l) l := List.perm_insertionSort keyLE l
  have hsorted : List.Sorted keyLE (sortEntries l) := List.sorted_insertionSort keyLE l
  have hnd : ((sortEntries l).map Prod.fst).Nodup := ((hperm.map Prod.fst).nodup_iff).mpr h
  have hne : (sortEntries l).Pairwise (fun a b : Int × Int => a.1 ≠ b.1) :=
    (List.pairwise_map).mp hnd
  have hlt : (sortEntries l).Pairwise keyLt :=
    (hsorted.and hne).imp (fun hab => lt_of_le_of_ne hab.1 hab.2)
  exact chain_interpCore keyLt (fun L P => by show (L : Int) < L + 1; omega) _ hlt.chain'

/-! ### Claim theorems -/

/-- C1: for an explicit-range anchor `ExplicitRange(L0, L1)` with
destination `P0` whose far end `L1` is present in the mapping with value
`P1`, the resolution step interpolates iff `L1 - L0 = P1 - P0`.  When the
spans agree, every logical key `L0 ≤ K ≤ L1` is mapped to `P0 + (K - L0)`
and no warning is printed; when they disagree, the mapping is left
untouched (so no intermediate key is added and both endpoints keep their
values) and exactly one size-mismatch warning is printed. -/
theorem explicit_range_interpolation (m : PMap) (L0 L1 P0 P1 : Int)
    (hEnd : lookupNum m L1 = some P1) :
    (L1 - L0 = P1 - P0 →
      (resolveStep m L0 L1 P0).2 = 0 ∧
      ∀ K : Int, L0 ≤ K → K ≤ L1 →
        lookupNum (resolveStep m L0 L1 P0).1 K = some (P0 + (K - L0))) ∧
    (L1 - L0 ≠ P1 - P0 →
      (resolveStep m L0 L1 P0).2 = 1 ∧
      (resolveStep m L0 L1 P0).1 = m ∧
      (∀ K : Int, L0 < K → K < L1 →
        lookupNum (resolveStep m L0 L1 P0).1 K = lookupNum m K) ∧
      (lookupNum m L0 = some P0 →
        lookupNum (resolveStep m L0 L1 P0).1 L0 = some P0) ∧
      lookupNum (resolveStep m L0 L1 P0).1 L1 = some P1) := by
  constructor
  · intro heq
    have hr : resolveStep m L0 L1 P0 = (writeRun m L0 P0 (L1 - L0 + 1).toNat, 0) := by
      unfold resolveStep
      rw [hEnd]
      simp only [if_pos (show L1 - L0 + 1 = P1 - P0 + 1 by omega)]
    rw [hr]
    refine ⟨rfl, fun K h1 h2 => ?_⟩
    have hb : L0 ≤ K ∧ K < L0 + ((L1 - L0 + 1).toNat : Int) := by omega
    rw [lookupNum_writeRun, if_pos hb]
  · intro hne
    have hr : resolveStep m L0 L1 P0 = (m, 1) := by
      unfold resolveStep
      rw [hEnd]
      simp only [if_neg (show ¬ (L1 - L0 + 1 = P1 - P0 + 1) by omega)]
    rw [hr]
    exact ⟨rfl, rfl, fun K _ _ => rfl, fun h => h, hEnd⟩

/-- Witness for C1 at the mapping `{2: 37, 5: 40}` and marker
`(2, 5, 37)`: spans agree and the interior key 3 is interpolated. -/
theorem explicit_range_interpolation_witness :
    lookupNum [(MKey.num 2, MVal.page 37), (MKey.num 5, MVal.page 40)] 5 = some 40 ∧
    (5 : Int) - 2 = 40 - 37 ∧
    lookupNum (resolveStep [(MKey.num 2, MVal.page 37), (MKey.num 5, MVal.page 40)] 2 5 37).1 3 =
      some 38 := by
  refine ⟨rfl, by norm_num, ?_⟩
  have h :=
    ((explicit_range_interpolation [(MKey.num 2, MVal.page 37), (MKey.num 5, MVal.page 40)]
      2 5 37 40 rfl).1 (by norm_num)).2 3 (by norm_num) (by norm_num)
  have e : (37 : Int) + (3 - 2) = 38 := by norm_num
  rw [e] at h
  exact h

/-- C10: the range-resolution pass runs on the fully accumulated
mapping, and its interpolation writes unconditionally, so for a linearly
resolving explicit range the interpolated value at an interior key `K`
replaces whatever value an earlier single-page anchor had recorded
there, whatever the accumulated mapping (hence whatever the anchors'
scan order) was. -/
theorem range_overwrites_direct (m : PMap) (L0 L1 P0 P1 K PK : Int)
    (hEnd : lookupNum m L1 = some P1) (hLin : L1 - L0 = P1 - P0)
    (hK1 : L0 < K) (hK2 : K < L1) (hPrev : lookupNum m K = some PK) :
    lookupNum (resolveStep m L0 L1 P0).1 K = some (P0 + (K - L0)) := by
  have hr : resolveStep m L0 L1 P0 = (writeRun m L0 P0 (L1 - L0 + 1).toNat, 0) := by
    unfold resolveStep
    rw [hEnd]
    simp only [if_pos (show L1 - L0 + 1 = P1 - P0 + 1 by omega)]
  rw [hr]
  have hb : L0 ≤ K ∧ K < L0 + ((L1 - L0 + 1).toNat : Int) := by omega
  rw [lookupNum_writeRun, if_pos hb]

/-- Witness for C10: the single anchor for page 3 recorded 99, the
range `2-5` resolves linearly against `5 ↦ 40`, and resolution rewrites
`3 ↦ 38`. -/
theorem range_overwrites_direct_witness :
    lookupNum [(MKey.num 3, MVal.page 99), (MKey.num 2, MVal.page 37),
      (MKey.num 5, MVal.page 40)] 3 = some 99 ∧
    lookupNum (resolveStep [(MKey.num 3, MVal.page 99), (MKey.num 2, MVal.page 37),
      (MKey.num 5, MVal.page 40)] 2 5 37).1 3 = some 38 := by
  refine ⟨rfl, ?_⟩
  have h := range_overwrites_direct
    [(MKey.num 3, MVal.page 99), (MKey.num 2, MVal.page 37), (MKey.num 5, MVal.page 40)]
    2 5 37 40 3 99 rfl (by norm_num) (by norm_num) (by norm_num) rfl
  have e : (37 : Int) + (3 - 2) = 38 := by norm_num
  rw [e] at h
  exact h

/-- C4 (amended): the Continuity Interpolator keeps every key of its
sparse input, with its value unchanged, so the output's key set contains
the input's; the containment is not strict in general (no key is added
when no adjacent pair has a linear gap larger than 1). -/
theorem interpolator_preserves_entries (l : List (Int × Int))
    (h : (l.map Prod.fst).Nodup) (k v : Int) (hkv : lookupKey l k = some v) :
    lookupKey (interpolateGaps l) k = some v := by
  have hmem : (k, v) ∈ l := mem_of_lookupKey_eq_some l k v hkv
  have hmem2 : (k, v) ∈ sortEntries l :=
    ((List.perm_insertionSort keyLE l).mem_iff).mpr hmem
  have hmem3 : (k, v) ∈ interpCore (sortEntries l) := mem_interpCore_of_mem _ _ hmem2
  have hchain := chain_keyLt_interp_sortEntries l h
  have hpw : (interpCore (sortEntries l)).Pairwise keyLt :=
    (List.chain'_iff_pairwise).mp hchain
  have hne : (interpCore (sortEntries l)).Pairwise (fun a b : Int × Int => a.1 ≠ b.1) :=
    hpw.imp fun hab => ne_of_lt hab
  have hnd : ((interpCore (sortEntries l)).map Prod.fst).Nodup :=
    (List.pairwise_map).mpr hne
  exact lookupKey_eq_some_of_mem _ hnd k v hmem3

/-- Witness for C4 (amended) on the sparse mapping
`{1: 143, 2: 144, 5: 147}`: the input entry `2 ↦ 144` survives. -/
theorem interpolator_preserves_entries_witness :
    (([((1 : Int), (143 : Int)), (2, 144), (5, 147)].map Prod.fst).Nodup) ∧
    lookupKey [((1 : Int), (143 : Int)), (2, 144), (5, 147)] 2 = some 144 ∧
    lookupKey (interpolateGaps [((1 : Int), (143 : Int)), (2, 144), (5, 147)]) 2 = some 144 := by
  refine ⟨by decide, by decide, ?_⟩
  exact interpolator_preserves_entries [((1 : Int), (143 : Int)), (2, 144), (5, 147)]
    (by decide) 2 144 (by decide)

/-- C4 counterexample: on the sparse mapping `{1: 143, 2: 144}` the
Continuity Interpolator returns exactly its input, so the output's key
set equals the input's and is not a strict superset — no additional key
is present. -/
theorem interpolator_not_strict_counterexample :
    interpolateGaps [((1 : Int), (143 : Int)), (2, 144)] = [(1, 143), (2, 144)] ∧
    (interpolateGaps [((1 : Int), (143 : Int)), (2, 144)]).map Prod.fst = [1, 2] ∧
    ([((1 : Int), (143 : Int)), (2, 144)]).map Prod.fst = [1, 2] := by
  refine ⟨by decide, by decide, by decide⟩

/-- C8: every key of the Continuity Interpolator's output that is absent
from its sparse input was synthesized by the linear rule from two
entries directly adjacent in the sorted key order, whose spans agree and
whose gap exceeds 1, with value `Pi + (L - Li)`; adjacency in the sorted
entry list rules out transitive interpolation across more than one gap,
and the gap bound rules out gaps of size 1. -/
theorem synthesized_keys_from_adjacent_pairs (l : List (Int × Int))
    (hnd : (l.map Prod.fst).Nodup) (k v : Int)
    (hout : lookupKey (interpolateGaps l) k = some v)
    (hin : lookupKey l k = none) :
    ∃ a b : Int × Int, (∃ u w, sortEntries l = u ++ a :: b :: w) ∧
      b.2 - a.2 = b.1 - a.1 ∧ b.1 - a.1 > 1 ∧
      a.1 < k ∧ k < b.1 ∧ v = a.2 + (k - a.1) := by
  have hmem : (k, v) ∈ interpCore (sortEntries l) :=
    mem_of_lookupKey_eq_some _ _ _ hout
  rcases mem_interpCore_cases _ _ hmem with h | ⟨a, b, hadj, h1, h2, h3, h4, h5⟩
  · have hl : (k, v) ∈ l := ((List.perm_insertionSort keyLE l).mem_iff).mp h
    exact absurd hin (lookupKey_ne_none_of_mem l k v hl)
  · exact ⟨a, b, hadj, h1, h2, h3, h4, h5⟩

/-- Witness for C8 on `{1: 143, 2: 144, 5: 147}`: key 3 is absent from
the input, present in the output with value 145, and indeed synthesized
from the adjacent pair `(2, 144), (5, 147)`. -/
theorem synthesized_keys_from_adjacent_pairs_witness :
    (([((1 : Int), (143 : Int)), (2, 144), (5, 147)].map Prod.fst).Nodup) ∧
    lookupKey (interpolateGaps [((1 : Int), (143 : Int)), (2, 144), (5, 147)]) 3 = some 145 ∧
    lookupKey [((1 : Int), (143 : Int)), (2, 144), (5, 147)] 3 = none ∧
    (∃ a b : Int × Int,
      (∃ u w, sortEntries [((1 : Int), (143 : Int)), (2, 144), (5, 147)] = u ++ a :: b :: w) ∧
      b.2 - a.2 = b.1 - a.1 ∧ b.1 - a.1 > 1 ∧
      a.1 < 3 ∧ (3 : Int) < b.1 ∧ (145 : Int) = a.2 + (3 - a.1)) := by
  refine ⟨by decide, by decide, by decide, ?_⟩
  exact synthesized_keys_from_adjacent_pairs [((1 : Int), (143 : Int)), (2, 144), (5, 147)]
    (by decide) 3 145 (by decide) (by decide)

/-- C9: the Continuity Interpolator is idempotent — applied to its own
output it returns that output unchanged (same entries, same key set,
same values), because after one pass every adjacent pair either has gap
exactly 1 or was already rejected by the linearity test. -/
theorem interpolator_idempotent (l : List (Int × Int)) :
    interpolateGaps (interpolateGaps l) = interpolateGaps l := by
  unfold interpolateGaps
  have hchain : List.Chain' keyLE (interpCore (sortEntries l)) := by
    refine chain_interpCore keyLE (fun L P => ?_) _ ?_
    · show (L : Int) ≤ L + 1
      omega
    · exact (List.sorted_insertionSort keyLE l).chain'
  have hs : List.Sorted keyLE (interpCore (sortEntries l)) :=
    (List.chain'_iff_pairwise).mp hchain
  have heq : sortEntries (interpCore (sortEntries l)) = interpCore (sortEntries l) :=
    hs.insertionSort_eq
  rw [heq]
  exact interpCore_eq_self _ (chain_not_fillCond_interpCore _)

/-- C2 (amended): when the scan window finds a `"1"`-labelled anchor
with resolved 1-based destination `d`, the offset strategy derives
`offset = d - 1` and generates `mapping[L] = L + offset` for every
`L` in `1 .. maxLogical`, with no fallback warning.  (A direct anchor
with raw 0-based page value 142 resolves to `d = 143`, hence offset 142
and `mapping[219] = 361`; the claim's `0-based value 143` instead gives
offset 143 and `mapping[219] = 362`.) -/
theorem offset_detector_general (doc : List (List Link)) (maxL : Nat) (d : Int)
    (h : firstOneDest doc = some d) :
    (build_yours_mapping doc maxL).2 = false ∧
    ∀ L : Int, 1 ≤ L → L ≤ (maxL : Int) →
      lookupKey (build_yours_mapping doc maxL).1 L = some (L + (d - 1)) := by
  unfold build_yours_mapping
  rw [h]
  refine ⟨rfl, fun L h1 h2 => ?_⟩
  rw [lookupKey_fillRun, if_pos (by constructor <;> omega)]
  congr 1
  ring

/-- Witness for C2 (amended): a direct anchor labelled `"1"` with raw
0-based destination 142 resolves to 143, so the offset is 142 and
logical 219 maps to physical 361. -/
theorem offset_detector_general_witness :
    firstOneDest [[Link.mk LinkKind.goto (some (Sum.inl 142)) "1"]] = some 143 ∧
    lookupKey (build_yours_mapping [[Link.mk LinkKind.goto (some (Sum.inl 142)) "1"]] 500).1
      219 = some 361 := by
  refine ⟨rfl, ?_⟩
  have h := (offset_detector_general [[Link.mk LinkKind.goto (some (Sum.inl 142)) "1"]]
    500 143 rfl).2 219 (by norm_num) (by norm_num)
  have e : (219 : Int) + (143 - 1) = 361 := by norm_num
  rw [e] at h
  exact h

/-- C2 counterexample: with a direct (`LINK_GOTO`) anchor labelled `"1"`
whose raw 0-based page value is 143, the code resolves the destination
to `143 + 1 = 144` and derives `offset = 144 - 1 = 143`, so logical page
219 maps to physical 362, not 361 as the claim states. -/
theorem offset_detector_counterexample :
    firstOneDest [[Link.mk LinkKind.goto (some (Sum.inl 143)) "1"]] = some 144 ∧
    lookupKey (build_yours_mapping [[Link.mk LinkKind.goto (some (Sum.inl 143)) "1"]] 500).1
      219 = some 362 ∧
    lookupKey (build_yours_mapping [[Link.mk LinkKind.goto (some (Sum.inl 143)) "1"]] 500).1
      219 ≠ some 361 := by
  have hb : build_yours_mapping [[Link.mk LinkKind.goto (some (Sum.inl 143)) "1"]] 500 =
      (fillRun 1 (1 + (144 - 1)) 500, false) := rfl
  have hl : lookupKey (build_yours_mapping
      [[Link.mk LinkKind.goto (some (Sum.inl 143)) "1"]] 500).1 219 = some 362 := by
    rw [hb, lookupKey_fillRun, if_pos (by constructor <;> norm_num)]
    norm_num
  refine ⟨rfl, hl, ?_⟩
  rw [hl]
  intro hcontra
  have : (362 : Int) = 361 := Option.some.inj hcontra
  norm_num at this

/-- C5 (amended): when no `"1"`-labelled anchor with a resolvable
destination is found in the scan window, the run does not fail:
`build_yours_mapping` emits a warning and continues with the default
offset, which is the constant 142 hardcoded in the function (the caller
cannot supply it — the function's only parameters are the document and
the maximum logical page). -/
theorem offset_fallback_default (doc : List (List Link)) (maxL : Nat)
    (h : firstOneDest doc = none) :
    (build_yours_mapping doc maxL).2 = true ∧
    ∀ L : Int, 1 ≤ L → L ≤ (maxL : Int) →
      lookupKey (build_yours_mapping doc maxL).1 L = some (L + 142) := by
  unfold build_yours_mapping
  rw [h]
  refine ⟨rfl, fun L h1 h2 => ?_⟩
  rw [lookupKey_fillRun, if_pos (by constructor <;> omega)]
  congr 1
  ring

/-- Witness for C5 (amended): a document whose only anchor is labelled
`"2"` yields no offset; the warning fires and logical 2 maps to
`2 + 142 = 144`. -/
theorem offset_fallback_default_witness :
    firstOneDest [[Link.mk LinkKind.goto (some (Sum.inl 10)) "2"]] = none ∧
    (build_yours_mapping [[Link.mk LinkKind.goto (some (Sum.inl 10)) "2"]] 3).2 = true ∧
    lookupKey (build_yours_mapping [[Link.mk LinkKind.goto (some (Sum.inl 10)) "2"]] 3).1
      2 = some 144 := by
  refine ⟨rfl,
    (offset_fallback_default [[Link.mk LinkKind.goto (some (Sum.inl 10)) "2"]] 3 rfl).1, ?_⟩
  have h := (offset_fallback_default [[Link.mk LinkKind.goto (some (Sum.inl 10)) "2"]]
    3 rfl).2 2 (by norm_num) (by norm_num)
  have e : (2 : Int) + 142 = 144 := by norm_num
  rw [e] at h
  exact h

/-- C5 counterexample: on a one-page document with no links at all the
fallback offset used is the built-in constant 142 — the function's
arguments (document and page bound) carry no offset, so the default is
not caller-supplied. -/
theorem offset_fallback_counterexample :
    build_yours_mapping [[]] 3 = ([(1, 143), (2, 144), (3, 145)], true) := by decide

/-- C3 (amended): an anchor whose stripped label falls into the
comma-list branch contributes a single silent mapping entry when exactly
one digit piece was parsed from it (no warning), and otherwise
contributes no entry and exactly one "multiple pages" warning; in
particular zero or two-plus digit pieces always warn.  The warning is
therefore emitted iff the digit-piece count differs from one, not
always. -/
theorem comma_list_behavior (s : String) (d : Int) (ns : List Int)
    (h : parseLabel (pyStrip s) = ParsedIntent.commaList ns) :
    (∀ n : Int, ns = [n] → build_page_mapping [(s, d)] = ([(n, d)], 0)) ∧
    (ns.length ≠ 1 → build_page_mapping [(s, d)] = ([], 1)) := by
  constructor
  · intro n hn
    subst hn
    have hstep : accumStep [] s d = ([(MKey.num n, MVal.page d)], 0) := by
      unfold accumStep
      rw [h]
      rfl
    unfold build_page_mapping accumulate
    simp only [List.foldl_cons, List.foldl_nil, hstep]
    rfl
  · intro hlen
    have hstep : accumStep [] s d = ([], 1) := by
      unfold accumStep
      rw [h]
      rcases ns with _ | ⟨n1, t1⟩
      · rfl
      · rcases t1 with _ | ⟨n2, t2⟩
        · exact absurd rfl hlen
        · rfl
    unfold build_page_mapping accumulate
    simp only [List.foldl_cons, List.foldl_nil, hstep]
    rfl

/-- Witness for C3: the label `"1, 2, 3"` with destination 10 parses to
the comma list `[1, 2, 3]` and produces zero mapping entries and exactly
one warning. -/
theorem comma_list_behavior_witness :
    parseLabel (pyStrip "1, 2, 3") = ParsedIntent.commaList [1, 2, 3] ∧
    build_page_mapping [("1, 2, 3", 10)] = ([], 1) := by
  refine ⟨by decide, ?_⟩
  exact (comma_list_behavior "1, 2, 3" 10 [1, 2, 3] (by decide)).2 (by decide)

/-- C3 counterexample: the comma-containing label `"12,abc"` (one digit
piece) contributes the entry `12 ↦ 5` and emits zero warnings, refuting
"the builder always emits a warning" for comma-rule labels. -/
theorem comma_list_silent_counterexample :
    build_page_mapping [("12,abc", 5)] = ([(12, 5)], 0) := by decide

/-- C6 (amended): the leading-digit fallback exists only in
`build_theirs_mapping_from_hyperlinks`: there, an anchor whose stripped
label is not digit-only and not digit-plus-dash but starts with a digit
run of value `n` contributes `n ↦ destination`.  In
`build_page_mapping` there is no such fallback: a label matching none of
its five rules contributes nothing, even when it starts with digits. -/
theorem digit_prefix_fallback (s : String) (d n : Int)
    (h1 : isDigits (pyStrip s) = false)
    (h2 : (strEndsWith (pyStrip s) '-' && isDigits (strDropLast (pyStrip s))) = false)
    (h3 : leadingDigits (pyStrip s) = some n) :
    lookupKey (build_theirs_mapping [(s, d)]) n = some d ∧
    ∀ (s2 : String) (d2 : Int), parseLabel (pyStrip s2) = ParsedIntent.unparseable →
      build_page_mapping [(s2, d2)] = ([], 0) := by
  constructor
  · have hstep : theirsStep [] s d = [(MKey.num n, MVal.page d)] := by
      simp only [theirsStep, h1, h2, h3, Bool.false_eq_true, if_false]
      rfl
    unfold build_theirs_mapping
    simp only [List.foldl_cons, List.foldl_nil, hstep]
    simp [rstartsOf, theirsResolve, numericEntries, sortEntries, List.insertionSort,
      List.orderedInsert, interpCore, lookupKey]
  · intro s2 d2 h
    have hstep : accumStep [] s2 d2 = ([], 0) := by
      unfold accumStep
      rw [h]
    unfold build_page_mapping accumulate
    simp only [List.foldl_cons, List.foldl_nil, hstep]
    rfl

/-- Witness for C6 (amended): the label `"12a"` is neither digit-only
nor digit-plus-dash, starts with the digit run `12`, maps `12 ↦ 7` in
the theirs-builder, and is unparseable (hence dropped) in
`build_page_mapping`. -/
theorem digit_prefix_fallback_witness :
    isDigits (pyStrip "12a") = false ∧
    leadingDigits (pyStrip "12a") = some 12 ∧
    lookupKey (build_theirs_mapping [("12a", 7)]) 12 = some 7 ∧
    parseLabel (pyStrip "12a") = ParsedIntent.unparseable ∧
    build_page_mapping [("12a", 7)] = ([], 0) := by
  refine ⟨by decide, by decide, ?_, by decide, ?_⟩
  · exact (digit_prefix_fallback "12a" 7 12 (by decide) (by decide) (by decide)).1
  · exact (digit_prefix_fallback "12a" 7 12 (by decide) (by decide) (by decide)).2 "12a" 7
      (by decide)

/-- C6 counterexample: the label `"12a"` begins with a digit run, yet
`build_page_mapping` (which the claim also covers) gives it no mapping
entry at logical page 12 — the digit-prefix fallback is absent there. -/
theorem digit_prefix_no_fallback_counterexample :
    build_page_mapping [("12a", 7)] = ([], 0) ∧
    lookupKey (build_page_mapping [("12a", 7)]).1 12 = none := by
  constructor <;> decide

/-- Halting part of the early-stop argument: once an anchor has been
seen (or some page of the prefix is guaranteed to yield one), everything
after a zero-anchor page is ignored. -/
theorem early_stop_aux (pre : List (List Anchor)) :
    ∀ (seen : Bool) (post : List (List Anchor)),
      (seen = true ∨ ∃ p, p ∈ pre ∧ p ≠ []) →
      extract_anchors_early_stop (pre ++ [] :: post) seen =
        extract_anchors_early_stop (pre ++ [[]]) seen := by
  induction pre with
  | nil =>
    intro seen post h
    rcases h with h | ⟨p, hp, _⟩
    · subst h
      rfl
    · exact absurd hp (List.not_mem_nil p)
  | cons pg rest ih =>
    intro seen post h
    by_cases hpg : pg.isEmpty
    · cases seen with
      | true => simp [extract_anchors_early_stop, hpg]
      | false =>
        have hred : ∀ l : List (List Anchor),
            extract_anchors_early_stop (pg :: l) false =
              extract_anchors_early_stop l false := by
          intro l
          simp [extract_anchors_early_stop, hpg]
        rw [List.cons_append, List.cons_append, hred, hred]
        apply ih false post
        rcases h with h | ⟨p, hp, hne⟩
        · exact absurd h (by simp)
        · rw [List.mem_cons] at hp
          rcases hp with hp | hp
          · exact absurd (hp ▸ (List.isEmpty_iff.mp hpg)) hne
          · exact Or.inr ⟨p, hp, hne⟩
    · have hred : ∀ (l : List (List Anchor)) (b : Bool),
          extract_anchors_early_stop (pg :: l) b =
            pg ++ extract_anchors_early_stop l true := by
        intro l b
        simp [extract_anchors_early_stop, hpg]
      rw [List.cons_append, List.cons_append, hred, hred]
      rw [ih true post (Or.inl rfl)]

/-- C7: in "stop at first gap" mode, scanning halts at the first page
yielding zero anchors once at least one anchor has been seen on an
earlier page (everything after the gap is ignored, so the result equals
the scan truncated at that gap), while a zero-anchor page occurring
before the first anchor is skipped and never stops the scan. -/
theorem early_stop_gap_behavior :
    (∀ pre post : List (List Anchor), (∃ p, p ∈ pre ∧ p ≠ []) →
      extract_anchors_early_stop (pre ++ [] :: post) false =
        extract_anchors_early_stop (pre ++ [[]]) false) ∧
    (∀ rest : List (List Anchor),
      extract_anchors_early_stop ([] :: rest) false =
        extract_anchors_early_stop rest false) := by
  constructor
  · intro pre post h
    exact early_stop_aux pre false post (Or.inr h)
  · intro rest
    rfl

/-- Witness for C7: with one anchor page before the gap, the pages after
the gap are ignored, and a leading empty page is skipped. -/
theorem early_stop_gap_behavior_witness :
    extract_anchors_early_stop [[("1", 5)], [], [("2", 6)]] false =
      extract_anchors_early_stop [[("1", 5)], []] false ∧
    extract_anchors_early_stop ([] :: [[("1", 5)]]) false =
      extract_anchors_early_stop [[("1", 5)]] false := by
  constructor
  · exact early_stop_gap_behavior.1 [[("1", 5)]] [[("2", 6)]] ⟨[("1", 5)], by decide, by decide⟩
  · exact early_stop_gap_behavior.2 [[("1", 5)]]
